import Mathlib

/-!
# Verification of the rag-system-mongodb core (server.js)

Shallow embedding of the retrieval pipeline of the repository's Express
server: the text chunker (`chunkText`), the similarity scorer
(`cosineSimilarity`), the query-time ranking / answer-selection logic of
`app.post('/query')`, and the store-replacement logic of
`app.post('/ingest')` and `app.post('/load-my-data')`.

Modelling conventions:
* JS strings are `List Char`; index arithmetic (`slice`, `lastIndexOf`)
  is over character positions, as in the source.
* JS numbers appearing in stored vectors are modelled as `ℚ` (every
  concrete vector entry is a decimal literal); values produced by
  `Math.sqrt` and division live in `ℝ`.  The literal `0.6` of the chunk
  heuristic and `0.7` / `0.6` of the tier policy are the exact rationals
  they denote.
* The `while` loop of `chunkText` is written with explicit fuel; the
  termination theorem for claim C10 proves the cut position strictly
  advances, which makes the chosen fuel (`cleanText.length`) sufficient.
* Absent / `null` values (`!vecA`, `doc.embedding`, missing metadata
  fields) are modelled with `Option`.
-/

namespace Rag

/-- The whitespace characters collapsed by `text.replace(/\s+/g, ' ')`
and removed by `.trim()` (the ASCII part of the JS `\s` class). -/
def isWS (c : Char) : Bool :=
  c = ' ' || c = '\t' || c = '\n' || c = '\r' || c = '\x0b' || c = '\x0c'

/-- `text.replace(/\s+/g, ' ')`: every maximal run of whitespace becomes
a single space. -/
def collapseWS (s : List Char) : List Char :=
  s.foldr (fun c acc =>
    if isWS c then (if acc.headD 'a' = ' ' then acc else ' ' :: acc)
    else c :: acc) []

/-- `.trim()`: drop leading and trailing whitespace. -/
def trimChars (s : List Char) : List Char :=
  ((s.dropWhile (fun c => isWS c)).reverse.dropWhile (fun c => isWS c)).reverse

/-- The `cleanText` of `chunkText`: collapse whitespace runs, then trim. -/
def normalizeWS (s : List Char) : List Char :=
  trimChars (collapseWS s)

/-- `cleanText.slice(start, stop)` for `0 ≤ start ≤ stop` (the only way
the source calls it): characters at positions `start ≤ i < stop`,
clamped to the text length. -/
def sliceChars (s : List Char) (start stop : ℕ) : List Char :=
  (s.take stop).drop start

/-- `cleanText.lastIndexOf('.', fromIdx)`: the largest position
`p ≤ fromIdx` holding a period, `none` when there is none (the source's
`-1`, which always fails the subsequent `>` test against a nonnegative
bound). -/
def lastIndexOfDot (s : List Char) : ℕ → Option ℕ
  | 0 => if s.getD 0 ' ' = '.' then some 0 else none
  | n + 1 => if s.getD (n + 1) ' ' = '.' then some (n + 1) else lastIndexOfDot s n

/-- The cut position computed by one iteration of the `chunkText` loop:
`end = start + chunkSize`, then, if that boundary is strictly inside the
text, `end = sentenceEnd + 1` whenever the backward period search
succeeds with `sentenceEnd > start + chunkSize * 0.6`.  The comparison
against `start + chunkSize * 0.6` is written in exact integer arithmetic
scaled by 10; `chunkEnd_cond_iff` below proves it equal to the literal
rational-valued comparison of the source. -/
def chunkEnd (s : List Char) (chunkSize start : ℕ) : ℕ :=
  let e := start + chunkSize
  if e < s.length then
    match lastIndexOfDot s e with
    | some sentenceEnd =>
        if 10 * start + 6 * chunkSize < 10 * sentenceEnd then sentenceEnd + 1
        else e
    | none => e
  else e

/-- The `while (start < cleanText.length)` loop of `chunkText`, with
explicit fuel.  Each iteration slices `[start, end)`, trims it, pushes
it when non-empty, and continues from `end`. -/
def chunkLoop (s : List Char) (chunkSize : ℕ) : ℕ → ℕ → List (List Char)
  | 0, _ => []
  | fuel + 1, start =>
    if start < s.length then
      let e := chunkEnd s chunkSize start
      let chunk := trimChars (sliceChars s start e)
      if 0 < chunk.length then chunk :: chunkLoop s chunkSize fuel e
      else chunkLoop s chunkSize fuel e
    else []

/-- `chunkText(text, chunkSize = 400)` from server.js.  An empty input is
falsy and yields `[]`; a normalized text no longer than `chunkSize` is a
single chunk; otherwise the greedy loop runs.  Fuel `cleanText.length`
is enough because every cut strictly advances (claim C10). -/
def chunkText (text : List Char) (chunkSize : ℕ) : List (List Char) :=
  if text.isEmpty then []
  else
    let cleanText := normalizeWS text
    if cleanText.length ≤ chunkSize then [cleanText]
    else chunkLoop cleanText chunkSize cleanText.length 0

/-- `vecA.reduce((sum, val, i) => sum + val * vecB[i], 0)`; the source
only evaluates it behind the equal-length guard, where pairing the two
vectors is exact. -/
def dotProduct (a b : List ℚ) : ℚ :=
  (a.zip b).foldl (fun sum p => sum + p.1 * p.2) 0

/-- `vec.reduce((sum, val) => sum + val * val, 0)`: the squared Euclidean
norm. -/
def sumSq (v : List ℚ) : ℚ :=
  v.foldl (fun sum x => sum + x * x) 0

/-- `Math.sqrt(sumSq v)`: the Euclidean norm. -/
noncomputable def magnitude (v : List ℚ) : ℝ :=
  Real.sqrt ((sumSq v : ℚ) : ℝ)

/-- `cosineSimilarity(vecA, vecB)` from server.js.  `none` models a
missing / `null` argument (`!vecA || !vecB`); the length guard and the
zero-magnitude guard return 0; otherwise the cosine is the dot product
over the product of the norms. -/
noncomputable def cosineSimilarity (vecA vecB : Option (List ℚ)) : ℝ :=
  match vecA, vecB with
  | some a, some b =>
    if a.length ≠ b.length then 0
    else if magnitude a = 0 ∨ magnitude b = 0 then 0
    else ((dotProduct a b : ℚ) : ℝ) / (magnitude a * magnitude b)
  | _, _ => 0

/-- A stored chunk as the query route reads it back: only `text` and
`embedding` are consumed; `doc.embedding` may be absent (`none`), in
which case the route scores against `[]` via `doc.embedding || []`. -/
structure StoredDoc where
  text : String
  embedding : Option (List ℚ)

/-- The JSON body of a successful `/query` response: `answer` and the
integer `Math.round(confidence * 100)`. -/
structure QueryResult where
  answer : String
  confidence : ℤ
deriving DecidableEq

/-- The fixed empty-database answer of the `/query` route. -/
def refusalEmpty : String :=
  "I don\x27t have any information in my database yet. Please add some documents first."

/-- The fixed low-tier refusal of the `/query` route. -/
def refusalLow : String :=
  "I\x27m sorry, but I don\x27t have information about that in my knowledge base. Please ask me something about the documents you\x27ve provided."

/-- The medium-tier template `Based on my knowledge: ${bestMatch.text}`. -/
def hedged (text : String) : String :=
  "Based on my knowledge: " ++ text

/-- `allDocs.map(doc => ({...doc, score: cosineSimilarity(queryEmbedding, doc.embedding || [])}))`. -/
noncomputable def scoreDocs (q : Option (List ℚ)) (docs : List StoredDoc) :
    List (StoredDoc × ℝ) :=
  docs.map (fun doc => (doc, cosineSimilarity q (some (doc.embedding.getD []))))

/-- `topDocs[0]` after `scoredDocs.sort((a, b) => b.score - a.score)` and
`slice(0, 3)`: the route only consumes the head of the stable descending
sort, i.e. the earliest entry of maximal score, modelled directly as a
fold. -/
noncomputable def bestScored : List (StoredDoc × ℝ) → Option (StoredDoc × ℝ)
  | [] => none
  | x :: xs => some (xs.foldl (fun b y => if b.2 < y.2 then y else b) x)

/-- The decision core of `app.post('/query')` (the Retrieval Ranker):
empty corpus short-circuits to the fixed empty-database answer with
confidence 0; otherwise the three-tier policy on the best score applies,
with `Math.round(confidence * 100)` reported. -/
noncomputable def rank_and_answer (q : Option (List ℚ)) (docs : List StoredDoc) :
    QueryResult :=
  match bestScored (scoreDocs q docs) with
  | none => ⟨refusalEmpty, 0⟩
  | some best =>
    if (0.7 : ℝ) < best.2 then ⟨best.1.text, round (best.2 * 100)⟩
    else if (0.6 : ℝ) < best.2 then ⟨hedged best.1.text, round (best.2 * 100)⟩
    else ⟨refusalLow, round ((0 : ℝ) * 100)⟩

/-- A chunk record as written to the `documents` collection.  The
`metadata` subdocument is flattened to its three fields; `/ingest` sets
`totalChunks` while `/load-my-data` omits it, hence the `Option`.  The
`createdAt` timestamp carries no information used anywhere and is not
modelled. -/
structure ChunkRecord where
  docId : String
  chunkIndex : ℕ
  text : List Char
  embedding : List ℚ
  title : String
  category : String
  totalChunks : Option ℕ
deriving DecidableEq

/-- `collection.deleteMany({ docId })`: drop every record of that
document. -/
def deleteManyByDocId (store : List ChunkRecord) (docId : String) : List ChunkRecord :=
  store.filter (fun c => decide (c.docId ≠ docId))

/-- The `documents` array built by `/ingest`: one record per chunk, with
`chunkIndex: idx`, `embedding: embeddings[idx]` and
`metadata.totalChunks: chunks.length`. -/
def mkIngestRecords (docId : String) (chunks : List (List Char))
    (embeddings : List (List ℚ)) (title category : String) : List ChunkRecord :=
  chunks.enum.map (fun p =>
    ⟨docId, p.1, p.2, embeddings.getD p.1 [], title, category, some chunks.length⟩)

/-- `app.post('/ingest')`: validate `docId` and `text`, chunk, reject an
empty chunk list, embed each chunk (the Voyage batch call, modelled by
the pure `embed` parameter returning one vector per chunk), delete every
existing record of `docId`, then insert the fresh records.  Metadata
defaults: `metadata.title || docId` and `metadata.category || 'general'`. -/
def ingest (embed : List Char → List ℚ) (store : List ChunkRecord) (docId : String)
    (text : List Char) (metaTitle metaCategory : Option String) :
    Except String (List ChunkRecord) :=
  if docId = "" ∨ text = [] then Except.error "Document ID and text are required"
  else
    let chunks := chunkText text 400
    if chunks = [] then Except.error "No valid text found"
    else
      let embeddings := chunks.map embed
      let cleared := deleteManyByDocId store docId
      Except.ok (cleared ++ mkIngestRecords docId chunks embeddings
        (metaTitle.getD docId) (metaCategory.getD "general"))

/-- The fixed `myData` array of `app.post('/load-my-data')`:
`(docId, text, metadata.title, metadata.category)`. -/
def myData : List (String × List Char × String × String) :=
  [("csec-lab-1", "csec-lab is good environment".toList, "CSEC Lab Environment", "academic"),
   ("csec-lab-2", "csec-lab contains around 400 students".toList, "CSEC Lab Student Count", "academic"),
   ("csec-astu-1", "csec-astu has 4 division".toList, "CSEC ASTU Divisions", "academic"),
   ("csec-dev-1", "csec-dev has around 50 members".toList, "CSEC Dev Members", "academic"),
   ("general-1", "sky is blue".toList, "General Fact", "general"),
   ("personal-1", "abebe eats beso".toList, "Personal Habit", "personal"),
   ("location-1", "astu is found in adama".toList, "ASTU Location", "location"),
   ("location-2", "adama is a beautiful city".toList, "Adama City", "location"),
   ("location-3", "addis abeba is different from adama".toList, "City Comparison", "location"),
   ("csec-lab-3", "csec-lab has been created since 2023".toList, "CSEC Lab Creation", "academic")]

/-- `app.post('/load-my-data')`: clear the collection, then for each
fixed document chunk, embed, and insert records whose `metadata` is the
raw `doc.metadata` — `title` and `category` only, with no `totalChunks`
field (`none`). -/
def loadMyData (embed : List Char → List ℚ) : List ChunkRecord :=
  myData.foldl (fun store d =>
    let chunks := chunkText d.2.1 400
    if chunks = [] then store
    else store ++ chunks.enum.map (fun p =>
      ⟨d.1, p.1, p.2, (chunks.map embed).getD p.1 [], d.2.2.1, d.2.2.2, none⟩)) []

/-! ## Chunker lemmas -/

lemma lastIndexOfDot_le {s : List Char} : ∀ {i p : ℕ}, lastIndexOfDot s i = some p → p ≤ i := by
  intro i
  induction i with
  | zero =>
    intro p h
    simp only [lastIndexOfDot] at h
    split at h
    · exact (Option.some_inj.mp h) ▸ le_refl 0
    · exact absurd h (by simp)
  | succ n ih =>
    intro p h
    simp only [lastIndexOfDot] at h
    split at h
    · exact (Option.some_inj.mp h) ▸ le_refl (n + 1)
    · exact le_trans (ih h) (Nat.le_succ n)

lemma lastIndexOfDot_isDot {s : List Char} :
    ∀ {i p : ℕ}, lastIndexOfDot s i = some p → s.getD p ' ' = '.' := by
  intro i
  induction i with
  | zero =>
    intro p h
    simp only [lastIndexOfDot] at h
    split at h
    · next hc => exact (Option.some_inj.mp h) ▸ hc
    · exact absurd h (by simp)
  | succ n ih =>
    intro p h
    simp only [lastIndexOfDot] at h
    split at h
    · next hc => exact (Option.some_inj.mp h) ▸ hc
    · exact ih h

lemma chunkEnd_cond_iff (start n p : ℕ) :
    (10 * start + 6 * n < 10 * p) ↔ (start : ℚ) + (n : ℚ) * 0.6 < (p : ℚ) := by
  rw [show (0.6 : ℚ) = 6 / 10 by norm_num]
  constructor
  · intro h
    have hq : ((10 * start + 6 * n : ℕ) : ℚ) < ((10 * p : ℕ) : ℚ) := by exact_mod_cast h
    push_cast at hq
    linarith
  · intro h
    have hq : ((10 * start + 6 * n : ℕ) : ℚ) < ((10 * p : ℕ) : ℚ) := by push_cast; linarith
    exact_mod_cast hq

lemma chunkEnd_le (s : List Char) (n start : ℕ) : chunkEnd s n start ≤ start + n + 1 := by
  unfold chunkEnd
  dsimp only
  split
  · split
    · next p hp =>
      split
      · have := lastIndexOfDot_le hp
        omega
      · omega
    · omega
  · omega

lemma length_dropWhile_le (p : Char → Bool) (l : List Char) :
    (l.dropWhile p).length ≤ l.length := by
  induction l with
  | nil => simp
  | cons x xs ih =>
    rw [List.dropWhile_cons]
    split
    · exact le_trans ih (Nat.le_succ _)
    · exact le_refl _

lemma trimChars_length_le (s : List Char) : (trimChars s).length ≤ s.length := by
  unfold trimChars
  calc ((s.dropWhile (fun c => isWS c)).reverse.dropWhile (fun c => isWS c)).reverse.length
      = ((s.dropWhile (fun c => isWS c)).reverse.dropWhile (fun c => isWS c)).length := by
        rw [List.length_reverse]
    _ ≤ (s.dropWhile (fun c => isWS c)).reverse.length := length_dropWhile_le _ _
    _ = (s.dropWhile (fun c => isWS c)).length := by rw [List.length_reverse]
    _ ≤ s.length := length_dropWhile_le _ _

lemma sliceChars_length_le (s : List Char) (start stop : ℕ) :
    (sliceChars s start stop).length ≤ stop - start := by
  unfold sliceChars
  rw [List.length_drop, List.length_take]
  omega

lemma chunkLoop_length_le (s : List Char) (n : ℕ) :
    ∀ (fuel start : ℕ), ∀ c ∈ chunkLoop s n fuel start, c.length ≤ n + 1 := by
  intro fuel
  induction fuel with
  | zero => intro start c hc; simp [chunkLoop] at hc
  | succ f ih =>
    intro start c hc
    simp only [chunkLoop] at hc
    split at hc
    · split at hc
      · rcases List.mem_cons.mp hc with h | h
        · subst h
          calc (trimChars (sliceChars s start (chunkEnd s n start))).length
              ≤ (sliceChars s start (chunkEnd s n start)).length := trimChars_length_le _
            _ ≤ chunkEnd s n start - start := sliceChars_length_le _ _ _
            _ ≤ n + 1 := by have := chunkEnd_le s n start; omega
        · exact ih _ c h
      · exact ih _ c hc
    · simp at hc

lemma chunkEnd_advances (s : List Char) (n start : ℕ) (hn : 1 ≤ n)
    (_hs : start < s.length) : start < chunkEnd s n start := by
  unfold chunkEnd
  dsimp only
  split
  · split
    · next p hp =>
      split
      · next hcond => omega
      · omega
    · omega
  · omega

lemma chunkEnd_zero (s : List Char) (start : ℕ) : chunkEnd s 0 start = start := by
  unfold chunkEnd
  dsimp only
  split
  · split
    · next p hp =>
      split
      · next hcond =>
        have hple : p ≤ start + 0 := lastIndexOfDot_le hp
        omega
      · omega
    · omega
  · omega

lemma chunkLoop_fuel_succ (s : List Char) (n : ℕ) (hn : 1 ≤ n) :
    ∀ (f start : ℕ), s.length ≤ start + f →
      chunkLoop s n f start = chunkLoop s n (f + 1) start := by
  intro f
  induction f with
  | zero =>
    intro start h
    simp only [chunkLoop]
    rw [if_neg (by omega)]
  | succ f ih =>
    intro start h
    by_cases hs : start < s.length
    · have hadv := chunkEnd_advances s n start hn hs
      conv_lhs => rw [chunkLoop]
      conv_rhs => rw [chunkLoop]
      rw [if_pos hs, if_pos hs]
      have hrec := ih (chunkEnd s n start) (by omega)
      simp only [hrec]
    · rw [chunkLoop, chunkLoop, if_neg hs, if_neg hs]

lemma chunkLoop_fuel_add (s : List Char) (n : ℕ) (hn : 1 ≤ n) :
    ∀ (k f start : ℕ), s.length ≤ start + f →
      chunkLoop s n f start = chunkLoop s n (f + k) start := by
  intro k
  induction k with
  | zero => intro f start _; rfl
  | succ k ih =>
    intro f start h
    rw [ih f start h, chunkLoop_fuel_succ s n hn (f + k) start (by omega)]
    rfl

/-- C10: for every input and every `maxLength ≥ 1` the chunking loop
terminates: the cut position is strictly past the chunk start at every
iteration, so fuel equal to the remaining length is enough and the
result does not depend on the fuel; for `maxLength = 0` the cut equals
the chunk start (no advancement), which is why the precondition is
required. -/
theorem chunkText_terminates (s : List Char) (n : ℕ) (hn : 1 ≤ n) :
    (∀ start, start < s.length → start < chunkEnd s n start) ∧
    (∀ f₁ f₂ start, s.length ≤ start + f₁ → s.length ≤ start + f₂ →
      chunkLoop s n f₁ start = chunkLoop s n f₂ start) ∧
    (∀ start, chunkEnd s 0 start = start) := by
  refine ⟨fun start hs => chunkEnd_advances s n start hn hs, ?_, fun start => chunkEnd_zero s start⟩
  intro f₁ f₂ start h₁ h₂
  calc chunkLoop s n f₁ start
      = chunkLoop s n (f₁ + f₂) start := chunkLoop_fuel_add s n hn f₂ f₁ start h₁
    _ = chunkLoop s n (f₂ + f₁) start := by rw [Nat.add_comm]
    _ = chunkLoop s n f₂ start := (chunkLoop_fuel_add s n hn f₁ f₂ start h₂).symm

/-- C10 witness: concrete instance at `maxLength = 1` on the two-character
text `"ab"`. -/
theorem chunkText_terminates_witness :
    (0 < chunkEnd "ab".toList 1 0) ∧
    chunkLoop "ab".toList 1 2 0 = chunkLoop "ab".toList 1 5 0 ∧
    chunkEnd "ab".toList 0 0 = 0 := by
  have h := chunkText_terminates "ab".toList 1 (by decide)
  exact ⟨h.1 0 (by decide), h.2.1 2 5 0 (by decide) (by decide), h.2.2 0⟩

/-- C2 counterexample: at `maxLength = 5` the input `"abcde.xy"` has a
period exactly at the proposed boundary index 5 (offset 5 ≥ 0.6·5), the
backward search finds it, and the cut after it produces the chunk
`"abcde."` of length 6 > 5 — the claimed bound `≤ maxLength` is false. -/
theorem chunk_length_cex :
    ∃ c ∈ chunkText "abcde.xy".toList 5, 5 < c.length := by decide

/-- C2 (amended): every chunk produced by `chunkText text maxLength` has
length at most `maxLength + 1` (the backward search may find a period at
the boundary index itself, and the cut just past it yields one extra
character); and whenever no period of offset ≥ `0.6 × maxLength` exists
within the searched window, the cut is at exactly `maxLength`. -/
theorem chunk_length_bound (text : List Char) (n : ℕ) :
    (∀ c ∈ chunkText text n, c.length ≤ n + 1) ∧
    (∀ (s : List Char) (start : ℕ),
      (∀ p, p < start + n + 1 → s.getD p ' ' = '.' →
        (p : ℚ) < (start : ℚ) + (n : ℚ) * 0.6) →
      chunkEnd s n start = start + n) := by
  constructor
  · intro c hc
    unfold chunkText at hc
    split at hc
    · simp at hc
    · dsimp only at hc
      split at hc
      · next hlen =>
        have h := List.mem_singleton.mp hc
        subst h
        omega
      · exact chunkLoop_length_le _ n _ 0 c hc
  · intro s start hnone
    unfold chunkEnd
    dsimp only
    split
    · split
      · next p hp =>
        have hple : p ≤ start + n := lastIndexOfDot_le hp
        have hq := hnone p (by omega) (lastIndexOfDot_isDot hp)
        rw [if_neg (by rw [chunkEnd_cond_iff]; linarith)]
      · rfl
    · rfl

/-- C2 witness: at `maxLength = 2` on `"abc"` both chunks respect the
amended bound, and on a period-free window the cut lands at exactly
`start + maxLength`. -/
theorem chunk_length_bound_witness :
    (∀ c ∈ chunkText "abc".toList 2, c.length ≤ 2 + 1) ∧
    chunkEnd "abcdef".toList 2 0 = 0 + 2 := by
  have h := chunk_length_bound "abc".toList 2
  exact ⟨h.1, h.2 "abcdef".toList 0 (by decide)⟩

/-- C3 counterexample: in `"abc.efgh"` with `maxLength = 5`, the proposed
boundary 5 is strictly inside the text, the backward search finds the
period at position 3, whose offset from the chunk start is exactly
`0.6 × 5 = 3` — yet the cut is taken at the raw boundary 5, not just
after the period, refuting the claimed inclusive boundary case. -/
theorem chunk_boundary_cex :
    0 + 5 < ("abc.efgh".toList).length ∧
    lastIndexOfDot "abc.efgh".toList (0 + 5) = some 3 ∧
    (0 : ℚ) + (5 : ℚ) * 0.6 ≤ (3 : ℚ) ∧
    chunkEnd "abc.efgh".toList 5 0 ≠ 3 + 1 := by
  refine ⟨by decide, by decide, by norm_num, by decide⟩

/-- C3 (amended): when the proposed boundary `start + maxLength` is
strictly before the text end and the backward search finds a period `p`,
the cut is just after `p` exactly when `p`'s offset is *strictly greater*
than `0.6 × maxLength`; in the boundary case (offset exactly equal) the
raw `maxLength` cut is taken. -/
theorem chunkEnd_period_cut (s : List Char) (n start p : ℕ)
    (h : start + n < s.length) (hp : lastIndexOfDot s (start + n) = some p) :
    chunkEnd s n start =
      (if (start : ℚ) + (n : ℚ) * 0.6 < (p : ℚ) then p + 1 else start + n) ∧
    ((p : ℚ) = (start : ℚ) + (n : ℚ) * 0.6 → chunkEnd s n start = start + n) := by
  have hmain : chunkEnd s n start =
      (if (start : ℚ) + (n : ℚ) * 0.6 < (p : ℚ) then p + 1 else start + n) := by
    unfold chunkEnd
    dsimp only
    rw [if_pos h, hp]
    exact if_congr (chunkEnd_cond_iff start n p) rfl rfl
  refine ⟨hmain, fun hpe => ?_⟩
  rw [hmain, if_neg (by rw [← hpe]; exact lt_irrefl _)]

/-- C3 witness: the concrete boundary instance — period found at offset
exactly `0.6 × 5`, cut taken at the raw boundary `0 + 5`. -/
theorem chunkEnd_period_cut_witness : chunkEnd "abc.efgh".toList 5 0 = 0 + 5 :=
  (chunkEnd_period_cut "abc.efgh".toList 5 0 3 (by decide) (by decide)).2 (by norm_num)

/-! ## Similarity scorer lemmas -/

lemma foldl_add_init {α : Type} (f : α → ℚ) (l : List α) :
    ∀ init : ℚ, l.foldl (fun s x => s + f x) init = init + (l.map f).sum := by
  induction l with
  | nil => intro init; simp
  | cons x xs ih =>
    intro init
    rw [List.foldl_cons, ih, List.map_cons, List.sum_cons]
    ring

lemma dotProduct_eq_sum (a b : List ℚ) :
    dotProduct a b = ((a.zip b).map (fun p => p.1 * p.2)).sum := by
  unfold dotProduct
  rw [foldl_add_init (fun p => p.1 * p.2) (a.zip b) 0, zero_add]

lemma sumSq_eq_sum (v : List ℚ) : sumSq v = (v.map (fun x => x * x)).sum := by
  unfold sumSq
  rw [foldl_add_init (fun x => x * x) v 0, zero_add]

lemma sumSq_nonneg (v : List ℚ) : 0 ≤ sumSq v := by
  rw [sumSq_eq_sum]
  apply List.sum_nonneg
  intro x hx
  rcases List.mem_map.mp hx with ⟨y, _, rfl⟩
  exact mul_self_nonneg y

lemma magnitude_nonneg (v : List ℚ) : 0 ≤ magnitude v := Real.sqrt_nonneg _

lemma magnitude_eq_zero_iff (v : List ℚ) : magnitude v = 0 ↔ sumSq v = 0 := by
  unfold magnitude
  rw [Real.sqrt_eq_zero']
  constructor
  · intro h
    have h2 : (0 : ℝ) ≤ ((sumSq v : ℚ) : ℝ) := by exact_mod_cast sumSq_nonneg v
    have h3 : ((sumSq v : ℚ) : ℝ) = 0 := le_antisymm h h2
    exact_mod_cast h3
  · intro h
    rw [h]
    simp

/-- Cauchy–Schwarz for a list of pairs, by induction: the square of the
sum of products is at most the product of the sums of squares. -/
lemma pairs_cauchy_schwarz (ps : List (ℚ × ℚ)) :
    ((ps.map (fun p => p.1 * p.2)).sum) ^ 2 ≤
      ((ps.map (fun p => p.1 * p.1)).sum) * ((ps.map (fun p => p.2 * p.2)).sum) := by
  induction ps with
  | nil => simp
  | cons q t ih =>
    simp only [List.map_cons, List.sum_cons]
    have hA : 0 ≤ (t.map (fun p => p.1 * p.1)).sum := by
      apply List.sum_nonneg
      intro x hx
      rcases List.mem_map.mp hx with ⟨y, _, rfl⟩
      exact mul_self_nonneg _
    have hB : 0 ≤ (t.map (fun p => p.2 * p.2)).sum := by
      apply List.sum_nonneg
      intro x hx
      rcases List.mem_map.mp hx with ⟨y, _, rfl⟩
      exact mul_self_nonneg _
    rcases eq_or_lt_of_le hB with hB0 | hBpos
    · have hD2 : ((t.map (fun p => p.1 * p.2)).sum) ^ 2 = 0 :=
        le_antisymm (by nlinarith) (sq_nonneg _)
      have hD : (t.map (fun p => p.1 * p.2)).sum = 0 := by
        exact pow_eq_zero_iff (by norm_num) |>.mp hD2
      rw [hD, ← hB0]
      nlinarith [mul_nonneg hA (mul_self_nonneg q.2)]
    · nlinarith [sq_nonneg (q.1 * (t.map (fun p => p.2 * p.2)).sum -
        q.2 * (t.map (fun p => p.1 * p.2)).sum),
        mul_nonneg (add_nonneg (mul_self_nonneg q.2) hB) (sub_nonneg.mpr ih)]

lemma dotProduct_sq_le (a b : List ℚ) (h : a.length = b.length) :
    (dotProduct a b) ^ 2 ≤ sumSq a * sumSq b := by
  rw [dotProduct_eq_sum, sumSq_eq_sum, sumSq_eq_sum]
  have hfst : (a.zip b).map Prod.fst = a := List.map_fst_zip a b (le_of_eq h)
  have hsnd : (a.zip b).map Prod.snd = b := List.map_snd_zip a b (le_of_eq h.symm)
  have ha : (a.zip b).map (fun p => p.1 * p.1) = a.map (fun x => x * x) := by
    conv_rhs => rw [← hfst]
    rw [List.map_map]
    rfl
  have hb : (a.zip b).map (fun p => p.2 * p.2) = b.map (fun x => x * x) := by
    conv_rhs => rw [← hsnd]
    rw [List.map_map]
    rfl
  rw [← ha, ← hb]
  exact pairs_cauchy_schwarz (a.zip b)

lemma cosineSimilarity_le_one (a b : Option (List ℚ)) : cosineSimilarity a b ≤ 1 := by
  rcases a with _ | x
  · norm_num [cosineSimilarity]
  · rcases b with _ | y
    · norm_num [cosineSimilarity]
    · unfold cosineSimilarity
      dsimp only
      by_cases hl : x.length = y.length
      · rw [if_neg (fun hne => hne hl)]
        by_cases hm : magnitude x = 0 ∨ magnitude y = 0
        · rw [if_pos hm]
          norm_num
        · rw [if_neg hm]
          push_neg at hm
          have hx0 : 0 < magnitude x := lt_of_le_of_ne (magnitude_nonneg x) (Ne.symm hm.1)
          have hy0 : 0 < magnitude y := lt_of_le_of_ne (magnitude_nonneg y) (Ne.symm hm.2)
          rw [div_le_one (by positivity)]
          have hsq : ((dotProduct x y : ℚ) : ℝ) ^ 2 ≤
              ((sumSq x : ℚ) : ℝ) * ((sumSq y : ℚ) : ℝ) := by
            exact_mod_cast dotProduct_sq_le x y hl
          have hXn : (0 : ℝ) ≤ ((sumSq x : ℚ) : ℝ) := by exact_mod_cast sumSq_nonneg x
          calc ((dotProduct x y : ℚ) : ℝ)
              ≤ |((dotProduct x y : ℚ) : ℝ)| := le_abs_self _
            _ = Real.sqrt (((dotProduct x y : ℚ) : ℝ) ^ 2) := (Real.sqrt_sq_eq_abs _).symm
            _ ≤ Real.sqrt (((sumSq x : ℚ) : ℝ) * ((sumSq y : ℚ) : ℝ)) := Real.sqrt_le_sqrt hsq
            _ = magnitude x * magnitude y := Real.sqrt_mul hXn _
      · rw [if_pos hl]
        norm_num

lemma dotProduct_comm (a b : List ℚ) : dotProduct a b = dotProduct b a := by
  rw [dotProduct_eq_sum, dotProduct_eq_sum, ← List.zip_swap a b, List.map_map]
  have hf : ((fun p : ℚ × ℚ => p.1 * p.2) ∘ Prod.swap) = fun p : ℚ × ℚ => p.1 * p.2 := by
    funext p
    simp [Function.comp, Prod.swap, mul_comm]
  rw [hf]

/-- C7: the similarity scorer is symmetric in its two arguments, for all
pairs of (possibly absent, possibly mismatched) vectors. -/
theorem similarity_symm (a b : Option (List ℚ)) :
    cosineSimilarity a b = cosineSimilarity b a := by
  rcases a with _ | x
  · rcases b with _ | y <;> rfl
  · rcases b with _ | y
    · rfl
    · unfold cosineSimilarity
      dsimp only
      by_cases h : x.length = y.length
      · rw [if_neg (show ¬x.length ≠ y.length from fun hne => hne h),
          if_neg (show ¬y.length ≠ x.length from fun hne => hne h.symm)]
        by_cases hm : magnitude x = 0 ∨ magnitude y = 0
        · rw [if_pos hm, if_pos (Or.symm hm)]
        · rw [if_neg hm, if_neg (show ¬(magnitude y = 0 ∨ magnitude x = 0) from
            fun hc => hm (Or.symm hc))]
          rw [dotProduct_comm x y, mul_comm (magnitude x) (magnitude y)]
      · rw [if_pos h, if_pos (show y.length ≠ x.length from fun he => h he.symm)]

/-- C6: the similarity scorer returns 0 (without failing) whenever an
argument is absent, the lengths differ, or either Euclidean norm is
exactly zero; in every other case it returns the cosine — the dot
product divided by the product of the two norms. -/
theorem similarity_degenerate :
    (∀ b, cosineSimilarity none b = 0) ∧
    (∀ a, cosineSimilarity a none = 0) ∧
    (∀ a b : List ℚ, a.length ≠ b.length → cosineSimilarity (some a) (some b) = 0) ∧
    (∀ a b : List ℚ, magnitude a = 0 ∨ magnitude b = 0 →
      cosineSimilarity (some a) (some b) = 0) ∧
    (∀ a b : List ℚ, a.length = b.length → magnitude a ≠ 0 → magnitude b ≠ 0 →
      cosineSimilarity (some a) (some b) =
        ((dotProduct a b : ℚ) : ℝ) / (magnitude a * magnitude b)) := by
  refine ⟨fun b => by cases b <;> rfl, fun a => by cases a <;> rfl, ?_, ?_, ?_⟩
  · intro a b h
    unfold cosineSimilarity
    dsimp only
    rw [if_pos h]
  · intro a b h
    unfold cosineSimilarity
    dsimp only
    by_cases hl : a.length = b.length
    · rw [if_neg (fun hne => hne hl), if_pos h]
    · rw [if_pos hl]
  · intro a b hl ha hb
    unfold cosineSimilarity
    dsimp only
    rw [if_neg (fun hne => hne hl), if_neg (by rintro (h | h) <;> [exact ha h; exact hb h])]

/-- C6 witness: a zero vector against a non-zero one of the same length
hits the zero-norm guard and scores 0. -/
theorem similarity_degenerate_witness :
    cosineSimilarity (some [(0 : ℚ)]) (some [(5 : ℚ)]) = 0 := by
  apply similarity_degenerate.2.2.2.1
  left
  rw [magnitude_eq_zero_iff]
  norm_num [sumSq]

/-! ## Query-path lemmas -/

lemma foldl_best_mem (x : StoredDoc × ℝ) (xs : List (StoredDoc × ℝ)) :
    xs.foldl (fun b y => if b.2 < y.2 then y else b) x ∈ x :: xs := by
  induction xs generalizing x with
  | nil => simp
  | cons y ys ih =>
    rw [List.foldl_cons]
    have h := ih (if x.2 < y.2 then y else x)
    rcases List.mem_cons.mp h with h1 | h1
    · rw [h1]
      by_cases h2 : x.2 < y.2
      · rw [if_pos h2]
        exact List.mem_cons_of_mem _ (List.mem_cons_self _ _)
      · rw [if_neg h2]
        exact List.mem_cons_self _ _
    · exact List.mem_cons_of_mem _ (List.mem_cons_of_mem _ h1)

lemma bestScored_mem {l : List (StoredDoc × ℝ)} {b : StoredDoc × ℝ}
    (h : bestScored l = some b) : b ∈ l := by
  cases l with
  | nil => exact absurd h (by simp [bestScored])
  | cons x xs =>
    have hb : xs.foldl (fun b y => if b.2 < y.2 then y else b) x = b := by
      have := h
      unfold bestScored at this
      exact Option.some_inj.mp this
    rw [← hb]
    exact foldl_best_mem x xs

lemma round_bounds {x : ℝ} (h0 : 0 ≤ x) (h1 : x ≤ 100) :
    0 ≤ round x ∧ round x ≤ 100 := by
  constructor
  · rw [round_eq]
    exact Int.le_floor.mpr (by push_cast; linarith)
  · rw [round_eq]
    have hf : (⌊x + 1 / 2⌋ : ℤ) ≤ ⌊(100 : ℝ) + 1 / 2⌋ := Int.floor_le_floor (by linarith)
    have h100 : (⌊(100 : ℝ) + 1 / 2⌋ : ℤ) = 100 := by
      apply Int.floor_eq_iff.mpr
      constructor <;> norm_num
    omega

/-- C4: querying an empty corpus is a successful result carrying the
fixed empty-database answer and confidence exactly 0. -/
theorem empty_corpus_refusal (q : Option (List ℚ)) :
    rank_and_answer q [] = ⟨refusalEmpty, 0⟩ := rfl

/-- C5: for every query vector and every corpus — including chunks whose
embeddings are absent, of mismatched length, zero, or with negative
entries — the reported confidence is an integer (by construction of its
type) lying between 0 and 100. -/
theorem confidence_in_range (q : Option (List ℚ)) (docs : List StoredDoc) :
    0 ≤ (rank_and_answer q docs).confidence ∧
      (rank_and_answer q docs).confidence ≤ 100 := by
  rcases hbs : bestScored (scoreDocs q docs) with _ | b
  · unfold rank_and_answer
    rw [hbs]
    exact ⟨le_refl 0, by norm_num⟩
  · have hmem := bestScored_mem hbs
    have hble : b.2 ≤ 1 := by
      rcases List.mem_map.mp hmem with ⟨d, _, rfl⟩
      exact cosineSimilarity_le_one _ _
    unfold rank_and_answer
    rw [hbs]
    dsimp only
    split
    · next h7 => exact round_bounds (by linarith) (by linarith)
    · split
      · next h6 => exact round_bounds (by linarith) (by linarith)
      · rw [zero_mul, round_zero]
        exact ⟨le_refl 0, by norm_num⟩

/-- C1: over a non-empty corpus the answer comes from the best-scoring
chunk through the three-tier policy with exclusive lower bounds: at a
best score of exactly 0.70 the medium-tier hedged answer is returned
with confidence `round(s*100)`; above 0.70 the chunk text verbatim with
confidence `round(s*100)`; at 0.60 or below the fixed refusal with
confidence 0. -/
theorem tier_policy (q : Option (List ℚ)) (docs : List StoredDoc) (b : StoredDoc × ℝ)
    (hb : bestScored (scoreDocs q docs) = some b) :
    (b.2 = 0.7 → rank_and_answer q docs = ⟨hedged b.1.text, round (b.2 * 100)⟩) ∧
    ((0.7 : ℝ) < b.2 → rank_and_answer q docs = ⟨b.1.text, round (b.2 * 100)⟩) ∧
    (b.2 ≤ 0.6 → rank_and_answer q docs = ⟨refusalLow, 0⟩) := by
  unfold rank_and_answer
  rw [hb]
  dsimp only
  refine ⟨fun h7 => ?_, fun h7 => ?_, fun h6 => ?_⟩
  · rw [if_neg (show ¬(0.7 : ℝ) < b.2 from by rw [h7]; exact lt_irrefl _),
      if_pos (show (0.6 : ℝ) < b.2 from by rw [h7]; norm_num)]
  · rw [if_pos h7]
  · rw [if_neg (show ¬(0.7 : ℝ) < b.2 from by linarith),
      if_neg (show ¬(0.6 : ℝ) < b.2 from by linarith), zero_mul, round_zero]

/-- Evaluation helper: the cosine of two concrete same-length vectors
with positive magnitudes given by perfect squares. -/
lemma cosine_eval_concrete (a b : List ℚ) (hl : a.length = b.length)
    (ma mb : ℝ) (hma : 0 < ma) (hmb : 0 < mb)
    (hsa : ((sumSq a : ℚ) : ℝ) = ma ^ 2) (hsb : ((sumSq b : ℚ) : ℝ) = mb ^ 2) :
    cosineSimilarity (some a) (some b) = ((dotProduct a b : ℚ) : ℝ) / (ma * mb) := by
  have hmag_a : magnitude a = ma := by
    unfold magnitude
    rw [hsa]
    exact Real.sqrt_sq hma.le
  have hmag_b : magnitude b = mb := by
    unfold magnitude
    rw [hsb]
    exact Real.sqrt_sq hmb.le
  unfold cosineSimilarity
  dsimp only
  rw [if_neg (show ¬a.length ≠ b.length from fun hne => hne hl),
    if_neg (show ¬(magnitude a = 0 ∨ magnitude b = 0) from by
      rw [hmag_a, hmag_b]
      rintro (h | h) <;> linarith), hmag_a, hmag_b]

lemma cos_eval_med :
    cosineSimilarity (some [(1 : ℚ), 0, 0, 0]) (some [(7 : ℚ), 7, 1, 1]) = 0.7 := by
  rw [cosine_eval_concrete [(1 : ℚ), 0, 0, 0] [(7 : ℚ), 7, 1, 1] rfl 1 10 (by norm_num)
    (by norm_num) (by norm_num [sumSq]) (by norm_num [sumSq])]
  norm_num [dotProduct]

lemma cos_eval_high :
    cosineSimilarity (some [(1 : ℚ), 0, 0, 0]) (some [(8 : ℚ), 6, 0, 0]) = 0.8 := by
  rw [cosine_eval_concrete [(1 : ℚ), 0, 0, 0] [(8 : ℚ), 6, 0, 0] rfl 1 10 (by norm_num)
    (by norm_num) (by norm_num [sumSq]) (by norm_num [sumSq])]
  norm_num [dotProduct]

lemma cos_eval_low :
    cosineSimilarity (some [(1 : ℚ), 0, 0, 0]) (some [(6 : ℚ), 8, 0, 0]) = 0.6 := by
  rw [cosine_eval_concrete [(1 : ℚ), 0, 0, 0] [(6 : ℚ), 8, 0, 0] rfl 1 10 (by norm_num)
    (by norm_num) (by norm_num [sumSq]) (by norm_num [sumSq])]
  norm_num [dotProduct]

/-- C1 witness: three one-chunk corpora whose best scores are exactly
0.7 (medium tier: hedged answer, confidence 70), 0.8 (high tier:
verbatim answer, confidence 80) and exactly 0.6 (low tier: fixed
refusal, confidence 0). -/
theorem tier_policy_witness :
    rank_and_answer (some [(1 : ℚ), 0, 0, 0]) [⟨"m", some [(7 : ℚ), 7, 1, 1]⟩] =
      ⟨hedged "m", 70⟩ ∧
    rank_and_answer (some [(1 : ℚ), 0, 0, 0]) [⟨"h", some [(8 : ℚ), 6, 0, 0]⟩] =
      ⟨"h", 80⟩ ∧
    rank_and_answer (some [(1 : ℚ), 0, 0, 0]) [⟨"l", some [(6 : ℚ), 8, 0, 0]⟩] =
      ⟨refusalLow, 0⟩ := by
  refine ⟨?_, ?_, ?_⟩
  · have h := (tier_policy (some [(1 : ℚ), 0, 0, 0]) [⟨"m", some [(7 : ℚ), 7, 1, 1]⟩]
      (⟨"m", some [(7 : ℚ), 7, 1, 1]⟩,
        cosineSimilarity (some [(1 : ℚ), 0, 0, 0]) (some [(7 : ℚ), 7, 1, 1])) rfl).1
      cos_eval_med
    rw [h]
    dsimp only
    rw [cos_eval_med, show (0.7 : ℝ) * 100 = ((70 : ℤ) : ℝ) by norm_num, round_intCast]
  · have h := (tier_policy (some [(1 : ℚ), 0, 0, 0]) [⟨"h", some [(8 : ℚ), 6, 0, 0]⟩]
      (⟨"h", some [(8 : ℚ), 6, 0, 0]⟩,
        cosineSimilarity (some [(1 : ℚ), 0, 0, 0]) (some [(8 : ℚ), 6, 0, 0])) rfl).2.1
      (by rw [cos_eval_high]; norm_num)
    rw [h]
    dsimp only
    rw [cos_eval_high, show (0.8 : ℝ) * 100 = ((80 : ℤ) : ℝ) by norm_num, round_intCast]
  · exact (tier_policy (some [(1 : ℚ), 0, 0, 0]) [⟨"l", some [(6 : ℚ), 8, 0, 0]⟩]
      (⟨"l", some [(6 : ℚ), 8, 0, 0]⟩,
        cosineSimilarity (some [(1 : ℚ), 0, 0, 0]) (some [(6 : ℚ), 8, 0, 0])) rfl).2.2
      (by rw [cos_eval_low])

/-! ## Ingestion-path lemmas -/

lemma deleteMany_no_doc (store : List ChunkRecord) (docId : String) :
    (deleteManyByDocId store docId).filter (fun r => decide (r.docId = docId)) = [] := by
  unfold deleteManyByDocId
  rw [List.filter_filter]
  apply List.filter_eq_nil_iff.mpr
  intro a _
  by_cases h : a.docId = docId <;> simp [h]

lemma mkIngestRecords_all_doc (docId : String) (chunks : List (List Char))
    (embeddings : List (List ℚ)) (title category : String) :
    (mkIngestRecords docId chunks embeddings title category).filter
        (fun r => decide (r.docId = docId)) =
      mkIngestRecords docId chunks embeddings title category := by
  apply List.filter_eq_self.mpr
  intro r hr
  rcases List.mem_map.mp hr with ⟨p, _, rfl⟩
  simp

lemma mkIngestRecords_length (docId : String) (chunks : List (List Char))
    (embeddings : List (List ℚ)) (title category : String) :
    (mkIngestRecords docId chunks embeddings title category).length = chunks.length := by
  unfold mkIngestRecords
  rw [List.length_map, List.enum_length]

lemma mkIngestRecords_indices (docId : String) (chunks : List (List Char))
    (embeddings : List (List ℚ)) (title category : String) :
    (mkIngestRecords docId chunks embeddings title category).map (fun r => r.chunkIndex) =
      List.range chunks.length := by
  unfold mkIngestRecords
  rw [List.map_map]
  have hf : ((fun r : ChunkRecord => r.chunkIndex) ∘ fun p : ℕ × List Char =>
      (⟨docId, p.1, p.2, embeddings.getD p.1 [], title, category,
        some chunks.length⟩ : ChunkRecord)) = Prod.fst := by
    funext p
    rfl
  rw [hf, List.enum_map_fst]

lemma ingest_ok_eq {embed : List Char → List ℚ} {store : List ChunkRecord} {docId : String}
    {text : List Char} {mt mc : Option String} {s' : List ChunkRecord}
    (h : ingest embed store docId text mt mc = Except.ok s') :
    s' = deleteManyByDocId store docId ++
        mkIngestRecords docId (chunkText text 400) ((chunkText text 400).map embed)
          (mt.getD docId) (mc.getD "general") ∧
      chunkText text 400 ≠ [] := by
  unfold ingest at h
  split at h
  · exact absurd h (by simp)
  · dsimp only at h
    split at h
    · exact absurd h (by simp)
    · next hne =>
      injection h with h
      exact ⟨h.symm, hne⟩

/-- C8: re-ingesting a `docId` leaves exactly the second version's chunks
for that document — the chunk count under that `docId` after the second
ingest is the chunk count of the second text only. -/
theorem reingest_replaces (embed : List Char → List ℚ) (store : List ChunkRecord)
    (docId : String) (t1 t2 : List Char) (mt1 mc1 mt2 mc2 : Option String)
    (s1 s2 : List ChunkRecord)
    (h1 : ingest embed store docId t1 mt1 mc1 = Except.ok s1)
    (h2 : ingest embed s1 docId t2 mt2 mc2 = Except.ok s2) :
    (s2.filter (fun r => decide (r.docId = docId))).length = (chunkText t2 400).length := by
  obtain ⟨hs2, -⟩ := ingest_ok_eq h2
  subst hs2
  rw [List.filter_append, deleteMany_no_doc, List.nil_append, mkIngestRecords_all_doc,
    mkIngestRecords_length]

/-- C8 witness: ingesting `"ab"` then `"cd"` under `docId = "d1"` into an
empty store leaves exactly one `"d1"` record — the chunk count of the
second text. -/
theorem reingest_replaces_witness :
    ((([⟨"d1", 0, "cd".toList, [(1 : ℚ)], "d1", "general", some 1⟩] :
        List ChunkRecord)).filter (fun r => decide (r.docId = "d1"))).length =
      (chunkText "cd".toList 400).length :=
  reingest_replaces (fun _ => [(1 : ℚ)]) [] "d1" "ab".toList "cd".toList none none none none
    [⟨"d1", 0, "ab".toList, [(1 : ℚ)], "d1", "general", some 1⟩]
    [⟨"d1", 0, "cd".toList, [(1 : ℚ)], "d1", "general", some 1⟩] rfl rfl

/-- C9 counterexample: the `/load-my-data` ingestion path inserts chunk
records whose `metadata` carries only `title` and `category` — the
`totalChunks` field claimed to be present on every ingestion path is
absent from every record it writes. -/
theorem ingest_invariant_cex :
    ∃ r ∈ loadMyData (fun _ => [(1 : ℚ)]), r.totalChunks = none := by decide

/-- C9 (amended): on the `/ingest` path the data-model invariant holds —
after a successful ingest the records of the ingested `docId` carry
`chunkIndex` values forming exactly the contiguous range
`[0, totalChunks)`, and each carries `totalChunks` equal to the chunk
count, which is at least 1; the `/load-my-data` path, by contrast,
writes records with no `totalChunks` at all. -/
theorem ingest_invariant (embed : List Char → List ℚ) (store : List ChunkRecord)
    (docId : String) (text : List Char) (mt mc : Option String) (s' : List ChunkRecord)
    (h : ingest embed store docId text mt mc = Except.ok s') :
    1 ≤ (chunkText text 400).length ∧
    (s'.filter (fun r => decide (r.docId = docId))).map (fun r => r.chunkIndex) =
      List.range (chunkText text 400).length ∧
    (∀ r ∈ s'.filter (fun r => decide (r.docId = docId)),
      r.totalChunks = some (chunkText text 400).length) := by
  obtain ⟨hs2, hne⟩ := ingest_ok_eq h
  subst hs2
  refine ⟨List.length_pos.mpr hne, ?_, ?_⟩
  · rw [List.filter_append, deleteMany_no_doc, List.nil_append, mkIngestRecords_all_doc,
      mkIngestRecords_indices]
  · intro r hr
    rw [List.filter_append, deleteMany_no_doc, List.nil_append,
      mkIngestRecords_all_doc] at hr
    rcases List.mem_map.mp hr with ⟨p, _, rfl⟩
    rfl

/-- C9 witness: a successful concrete ingest of `"hi"` into an empty
store yields one record with `chunkIndex` range `[0, 1)` and
`totalChunks = some 1`. -/
theorem ingest_invariant_witness :
    1 ≤ (chunkText "hi".toList 400).length ∧
    ((([⟨"d1", 0, "hi".toList, [], "d1", "general", some 1⟩] :
        List ChunkRecord)).filter (fun r => decide (r.docId = "d1"))).map
      (fun r => r.chunkIndex) = List.range (chunkText "hi".toList 400).length ∧
    (∀ r ∈ (([⟨"d1", 0, "hi".toList, [], "d1", "general", some 1⟩] :
        List ChunkRecord)).filter (fun r => decide (r.docId = "d1")),
      r.totalChunks = some (chunkText "hi".toList 400).length) :=
  ingest_invariant (fun _ => []) [] "d1" "hi".toList none none
    [⟨"d1", 0, "hi".toList, [], "d1", "general", some 1⟩] rfl

end Rag
